import Mathlib

/-!
Shallow embedding of the matching-engine core of the
`simple-stock-matcher-experiment` repository (files `src/key.rs`,
`src/range.rs`, `src/bids.rs`, `src/pool.rs`, `src/order_book.rs`).

Machine integers (`u64`, `usize`) are modelled as `Nat`; every subtraction
in the source is guarded by a comparison (this is itself one of the claims,
settled below by the `Checked` variants), so `Nat` subtraction coincides
with the `u64` subtraction on every path the program takes.

The `BTreeMap<PoolKey, Bid>` of `Pool` is modelled as a list of
key/value pairs held in ascending key order (the map's iteration order),
plus the insertion counter.  `info!` log lines are modelled as explicit
event data: the `[TRADE]` lines as a list of `TradeEvent`s, the `[DROP ]`
line as a `Bool`, and the `[ ADD ]` line is determined by the returned
remainder (it is printed exactly when the remainder is `some`).
-/

/-- `BidProcessingType` from `src/bids.rs`. -/
inductive BidProcessingType where
  | Limit
  | FillOrKill
  | ImmediateOrCancel
deriving DecidableEq, Repr

/-- `Bid` from `src/bids.rs`: `price`, `amount`, `user_id`, all `u64`.
The `BidKind` phantom marker carries no data and is dropped; the side is
passed explicitly where the source dispatches on it. -/
structure Bid where
  price : Nat
  amount : Nat
  user_id : Nat
deriving DecidableEq, Repr

/-- The two `BidKind` markers `BuyingBid` / `SellingBid` of `src/bids.rs`,
as a plain enum: the side of a pool (which book) or of a bid. -/
inductive Side where
  | buy
  | sell
deriving DecidableEq, Repr

/-- `PoolKey` from `src/key.rs`: insertion id (`usize`) and price (`u64`). -/
structure PoolKey where
  id : Nat
  price : Nat
deriving DecidableEq, Repr

/-- `usize::max_value()` — the sentinel id used by `what_matches`
in `src/range.rs`. -/
def usizeMax : Nat := 2 ^ 64 - 1

/-- The strict order of `impl Ord for PoolKey` in `src/key.rs`:
buy keys compare by descending price then ascending id, sell keys by
ascending price then ascending id.  `PoolKey.lt s a b` is `a < b` in the
`BTreeMap` ordering of a pool of side `s`. -/
def PoolKey.lt (side : Side) (a b : PoolKey) : Bool :=
  match side with
  | .buy => decide (b.price < a.price) || (a.price == b.price && a.id < b.id)
  | .sell => decide (a.price < b.price) || (a.price == b.price && a.id < b.id)

/-- `MatchingRange::what_matches` from `src/range.rs`: both impls return
the range `..PoolKey::new(usize::max_value(), active.price)`; this is the
excluded upper bound of that range. -/
def what_matches (active : Bid) : PoolKey :=
  ⟨usizeMax, active.price⟩

/-- `Pool` from `src/pool.rs`: the `BTreeMap` as its ascending-key entry
list, and the `usize` insertion counter. -/
structure Pool where
  entries : List (PoolKey × Bid)
  count : Nat
deriving DecidableEq, Repr

/-- The empty pool (`Pool::new` / `Pool::default`). -/
def Pool.empty : Pool := ⟨[], 0⟩

/-- Ordered insertion into the entry list: the position `BTreeMap::insert`
gives the new key (replacing an entry with an equal key, which never
happens for the fresh keys `push` makes). -/
def insertSorted (side : Side) (k : PoolKey) (v : Bid) :
    List (PoolKey × Bid) → List (PoolKey × Bid)
  | [] => [(k, v)]
  | e :: rest =>
    if PoolKey.lt side k e.1 then (k, v) :: e :: rest
    else if k = e.1 then (k, v) :: rest
    else e :: insertSorted side k v rest

/-- `Pool::push` from `src/pool.rs`: increment the counter, insert the bid
under the key `(counter, bid.price)`. -/
def Pool.push (side : Side) (p : Pool) (bid : Bid) : Pool :=
  let c := p.count + 1
  { entries := insertSorted side ⟨c, bid.price⟩ bid p.entries, count := c }

/-- The `scan` combinator inside `Pool::get_suitable`: starting from
`left = active.amount`, stop before an entry once `left = 0`; otherwise
yield the entry, setting `left` to `0` if the entry's amount exceeds it
and subtracting the amount from it otherwise. -/
def scanTake : Nat → List (PoolKey × Bid) → List (PoolKey × Bid)
  | _, [] => []
  | left, e :: rest =>
    if left = 0 then []
    else
      let amount := e.2.amount
      let newLeft := if amount > left then 0 else left - amount
      e :: scanTake newLeft rest

/-- `Pool::get_suitable` from `src/pool.rs`: the entries of
`range_mut(..what_matches)` (keys strictly below the sentinel in the
book's order), with the active user's own entries filtered out, truncated
by the `scan` once the cumulative amount reaches the active amount. -/
def get_suitable (side : Side) (pool : Pool) (active : Bid) :
    List (PoolKey × Bid) :=
  scanTake active.amount
    ((pool.entries.filter fun e => PoolKey.lt side e.1 (what_matches active)).filter
      fun e => e.2.user_id ≠ active.user_id)

/-- A `[TRADE]` log line of `process_items` in `src/pool.rs`:
`User {taker} bought/sold {qty} items from/to user {maker} for price {price}`. -/
structure TradeEvent where
  taker_user : Nat
  maker_user : Nat
  qty : Nat
  price : Nat
deriving DecidableEq, Repr

/-- `MatchingResult` from `src/pool.rs`, extended with the observable
side effects of `process_items`: the emitted `[TRADE]` lines and the
in-place `pool_bid.amount` writes (key, new amount). -/
structure MatchingResult where
  keys_to_drop : List PoolKey
  items_processed : Nat
  trades : List TradeEvent
  updates : List (PoolKey × Nat)
deriving DecidableEq, Repr

/-- The `for_each` loop body of `process_items`: threading `items_left`,
collect dropped keys, trade events and amount writes.  Returns the final
`items_left` with the three lists. -/
def processItemsGo (activeUser : Nat) (itemsLeft : Nat) :
    List (PoolKey × Bid) → Nat × List PoolKey × List TradeEvent × List (PoolKey × Nat)
  | [] => (itemsLeft, [], [], [])
  | (key, poolBid) :: rest =>
    let current := poolBid.amount
    if current ≤ itemsLeft then
      let r := processItemsGo activeUser (itemsLeft - current) rest
      (r.1, key :: r.2.1,
        ⟨activeUser, poolBid.user_id, current, poolBid.price⟩ :: r.2.2.1, r.2.2.2)
    else
      let r := processItemsGo activeUser 0 rest
      (r.1, r.2.1, r.2.2.1, (key, poolBid.amount - itemsLeft) :: r.2.2.2)

/-- `process_items` from `src/pool.rs`: walk the given items with
`items_left` starting at the active amount; a fully covered entry is
marked for removal and logs a trade, a larger entry is decremented in
place (no trade line in the source); `items_processed` is the initial
amount minus the final `items_left`. -/
def process_items (active : Bid) (items : List (PoolKey × Bid)) : MatchingResult :=
  let r := processItemsGo active.user_id active.amount items
  { keys_to_drop := r.2.1
    items_processed := active.amount - r.1
    trades := r.2.2.1
    updates := r.2.2.2 }

/-- Replay the in-place `pool_bid.amount` writes of `process_items` on the
entry list (the writes went through `&mut` references into the map). -/
def applyUpdates (entries : List (PoolKey × Bid)) (updates : List (PoolKey × Nat)) :
    List (PoolKey × Bid) :=
  entries.map fun e =>
    match updates.find? (fun u => u.1 = e.1) with
    | some u => (e.1, { e.2 with amount := u.2 })
    | none => e

/-- The `keys_to_drop` removal loop of `process_bid`: `self.0.remove(&key)`
for each collected key. -/
def removeKeys (entries : List (PoolKey × Bid)) (keys : List PoolKey) :
    List (PoolKey × Bid) :=
  entries.filter fun e => ¬ keys.contains e.1

/-- The observable outcome of `Pool::process_bid`: the mutated pool, the
returned remainder (`Option<Bid>`), the `[TRADE]` lines emitted during the
call, and whether a `[DROP ]` line was printed.  The `[ ADD ]` line of
`process_bid` is printed exactly when `remainder` is `some`. -/
structure ProcessOutput where
  pool : Pool
  remainder : Option Bid
  trades : List TradeEvent
  dropEvent : Bool
deriving DecidableEq, Repr

/-- `Pool::process_bid` from `src/pool.rs`.  `Limit`: process the suitable
entries, apply the writes, remove the dropped keys, and return the
unprocessed part as remainder (or `none` when fully processed).
`FillOrKill`: sum the suitable amounts as `u64` — wrapping modulo
`2^64` on overflow, the release-mode semantics of the source's
`.sum()` — and compare; if at least the active amount, re-run the walk
destructively — the source destructures only `items_processed` and
never removes `keys_to_drop` here — else print `[DROP ]` and leave the
pool alone.  `ImmediateOrCancel`: like `Limit`
but never return a remainder, printing `[DROP ]` when nothing was
processed. -/
def process_bid (side : Side) (pool : Pool) (active : Bid)
    (ty : BidProcessingType) : ProcessOutput :=
  let suitable := get_suitable side pool active
  match ty with
  | .Limit =>
    let r := process_items active suitable
    let entries1 := removeKeys (applyUpdates pool.entries r.updates) r.keys_to_drop
    let pool1 : Pool := { entries := entries1, count := pool.count }
    if r.items_processed = active.amount then
      { pool := pool1, remainder := none, trades := r.trades, dropEvent := false }
    else
      { pool := pool1
        remainder := some { active with amount := active.amount - r.items_processed }
        trades := r.trades
        dropEvent := false }
  | .FillOrKill =>
    let needed := active.amount
    let available := (suitable.map fun e => e.2.amount).sum % 2 ^ 64
    if needed ≤ available then
      let r := process_items active suitable
      { pool := { entries := applyUpdates pool.entries r.updates, count := pool.count }
        remainder := none, trades := r.trades, dropEvent := false }
    else
      { pool := pool, remainder := none, trades := [], dropEvent := true }
  | .ImmediateOrCancel =>
    let r := process_items active suitable
    let entries1 := removeKeys (applyUpdates pool.entries r.updates) r.keys_to_drop
    { pool := { entries := entries1, count := pool.count }
      remainder := none, trades := r.trades, dropEvent := r.items_processed = 0 }

/-- The mathematical value of the liquidity sum the `FillOrKill` arm of
`process_bid` computes: the suitable entries' amounts summed over `Nat`,
so an overflowing `u64` sum shows as a value above `2^64 - 1`.
`process_bid` compares this value modulo `2^64` (the wrapped `u64`). -/
def available_amount (side : Side) (pool : Pool) (active : Bid) : Nat :=
  ((get_suitable side pool active).map fun e => e.2.amount).sum

/-- `items_processed` of the walk a submission performs (the number of
units the book mutation accounts as filled). -/
def filled_amount (side : Side) (pool : Pool) (active : Bid) : Nat :=
  (process_items active (get_suitable side pool active)).items_processed

/-- `OrderBook` from `src/order_book.rs`: a selling pool and a buying pool. -/
structure OrderBook where
  sellers : Pool
  buyers : Pool
deriving DecidableEq, Repr

/-- `OrderBook::empty`. -/
def OrderBook.empty : OrderBook := ⟨Pool.empty, Pool.empty⟩

/-- `OrderBook::process_selling`: run the selling bid against the buyers
pool; push any remainder onto the sellers pool.  Also returns the
observable outcome of the `process_bid` call. -/
def process_selling (book : OrderBook) (bid : Bid) (ty : BidProcessingType) :
    OrderBook × ProcessOutput :=
  let out := process_bid .buy book.buyers bid ty
  match out.remainder with
  | some rest => (⟨Pool.push .sell book.sellers rest, out.pool⟩, out)
  | none => (⟨book.sellers, out.pool⟩, out)

/-- `OrderBook::process_buying`: symmetric to `process_selling`. -/
def process_buying (book : OrderBook) (bid : Bid) (ty : BidProcessingType) :
    OrderBook × ProcessOutput :=
  let out := process_bid .sell book.sellers bid ty
  match out.remainder with
  | some rest => (⟨out.pool, Pool.push .buy book.buyers rest⟩, out)
  | none => (⟨out.pool, book.buyers⟩, out)

/-- One record of the input stream (`RawBid` in `src/raw.rs`): the side of
the incoming order, the bid, and the processing type. -/
structure Submission where
  side : Side
  bid : Bid
  ty : BidProcessingType
deriving DecidableEq, Repr

/-- Dispatch one submission (`process_reader`'s loop body): a `Sell`
record goes through `process_selling`, a `Buy` record through
`process_buying`. -/
def submitStep (book : OrderBook) (s : Submission) : OrderBook × ProcessOutput :=
  match s.side with
  | .sell => process_selling book s.bid s.ty
  | .buy => process_buying book s.bid s.ty

/-- Run a list of submissions against the empty order book. -/
def run (subs : List Submission) : OrderBook :=
  subs.foldl (fun b s => (submitStep b s).1) OrderBook.empty

/-- Structural invariant of a pool: its entry list is strictly ascending
in the side's key order (the `BTreeMap` iteration order), and each key
stores the price of its bid (keys are built as `(id, bid.price)`). -/
def poolInv (side : Side) (p : Pool) : Prop :=
  p.entries.Pairwise (fun a b => PoolKey.lt side a.1 b.1 = true) ∧
  ∀ e ∈ p.entries, e.1.price = e.2.price

/-- Invariant of an order book: both pools satisfy `poolInv`. -/
def bookInv (b : OrderBook) : Prop :=
  poolInv .sell b.sellers ∧ poolInv .buy b.buyers

/-- Guarded `u64` subtraction: `a - b` only when the comparison `b ≤ a`
holds, `none` where the Rust subtraction would underflow. -/
def checkedSub (a b : Nat) : Option Nat :=
  if b ≤ a then some (a - b) else none

/-- `scanTake` with its one subtraction (`*left -= amount`, taken in the
branch where `amount ≤ left`) routed through `checkedSub`. -/
def scanTakeChecked : Nat → List (PoolKey × Bid) → Option (List (PoolKey × Bid))
  | _, [] => some []
  | left, e :: rest =>
    if left = 0 then some []
    else if e.2.amount > left then do
      let r ← scanTakeChecked 0 rest
      pure (e :: r)
    else do
      let newLeft ← checkedSub left e.2.amount
      let r ← scanTakeChecked newLeft rest
      pure (e :: r)

/-- The `process_items` loop with both subtractions
(`items_left -= current_items` under `current_items ≤ items_left`, and
`pool_bid.amount -= items_left` under `current_items > items_left`)
routed through `checkedSub`. -/
def processItemsGoChecked (activeUser : Nat) (itemsLeft : Nat) :
    List (PoolKey × Bid) →
      Option (Nat × List PoolKey × List TradeEvent × List (PoolKey × Nat))
  | [] => some (itemsLeft, [], [], [])
  | (key, poolBid) :: rest =>
    let current := poolBid.amount
    if current ≤ itemsLeft then do
      let newLeft ← checkedSub itemsLeft current
      let r ← processItemsGoChecked activeUser newLeft rest
      pure (r.1, key :: r.2.1,
        ⟨activeUser, poolBid.user_id, current, poolBid.price⟩ :: r.2.2.1, r.2.2.2)
    else do
      let w ← checkedSub poolBid.amount itemsLeft
      let r ← processItemsGoChecked activeUser 0 rest
      pure (r.1, r.2.1, r.2.2.1, (key, w) :: r.2.2.2)

/-- `process_items` with every `u64` subtraction checked, including the
final `amount_needed - items_left` computing `items_processed`. -/
def process_itemsChecked (active : Bid) (items : List (PoolKey × Bid)) :
    Option MatchingResult := do
  let r ← processItemsGoChecked active.user_id active.amount items
  let processed ← checkedSub active.amount r.1
  pure ⟨r.2.1, processed, r.2.2.1, r.2.2.2⟩

/-- `process_bid` with every `u64` subtraction checked, including the
Limit remainder `active_bid.amount -= items_processed`. -/
def process_bidChecked (side : Side) (pool : Pool) (active : Bid)
    (ty : BidProcessingType) : Option ProcessOutput := do
  let suitable ← scanTakeChecked active.amount
    ((pool.entries.filter fun e => PoolKey.lt side e.1 (what_matches active)).filter
      fun e => e.2.user_id ≠ active.user_id)
  match ty with
  | .Limit => do
    let r ← process_itemsChecked active suitable
    let entries1 := removeKeys (applyUpdates pool.entries r.updates) r.keys_to_drop
    if r.items_processed = active.amount then
      pure { pool := ⟨entries1, pool.count⟩, remainder := none
             trades := r.trades, dropEvent := false }
    else do
      let rem ← checkedSub active.amount r.items_processed
      pure { pool := ⟨entries1, pool.count⟩
             remainder := some { active with amount := rem }
             trades := r.trades, dropEvent := false }
  | .FillOrKill =>
    if active.amount ≤ (suitable.map fun e => e.2.amount).sum % 2 ^ 64 then do
      let r ← process_itemsChecked active suitable
      pure { pool := ⟨applyUpdates pool.entries r.updates, pool.count⟩
             remainder := none, trades := r.trades, dropEvent := false }
    else
      pure { pool := pool, remainder := none, trades := [], dropEvent := true }
  | .ImmediateOrCancel => do
    let r ← process_itemsChecked active suitable
    pure { pool := ⟨removeKeys (applyUpdates pool.entries r.updates) r.keys_to_drop,
             pool.count⟩
           remainder := none, trades := r.trades
           dropEvent := r.items_processed = 0 }

/-! ## Basic computation lemmas -/

theorem scanTake_zero (l : List (PoolKey × Bid)) : scanTake 0 l = [] := by
  cases l <;> simp [scanTake]

theorem applyUpdates_nil (entries : List (PoolKey × Bid)) :
    applyUpdates entries [] = entries := by
  simp [applyUpdates]

theorem removeKeys_nil (entries : List (PoolKey × Bid)) :
    removeKeys entries [] = entries := by
  simp [removeKeys]

theorem process_items_nil (active : Bid) :
    process_items active [] = ⟨[], 0, [], []⟩ := by
  simp [process_items, processItemsGo]

/-! ## Structure of the priority walk -/

theorem scanTake_sublist (left : Nat) (l : List (PoolKey × Bid)) :
    (scanTake left l).Sublist l := by
  induction l generalizing left with
  | nil => simp [scanTake]
  | cons e rest ih =>
    simp only [scanTake]
    split
    · exact List.nil_sublist _
    · exact List.Sublist.cons₂ _ (ih _)

theorem get_suitable_sublist (side : Side) (pool : Pool) (active : Bid) :
    (get_suitable side pool active).Sublist pool.entries :=
  ((scanTake_sublist _ _).trans (List.filter_sublist _)).trans (List.filter_sublist _)

theorem get_suitable_user_ne (side : Side) (pool : Pool) (active : Bid) :
    ∀ e ∈ get_suitable side pool active, e.2.user_id ≠ active.user_id := by
  intro e he
  have : e ∈ (pool.entries.filter fun e =>
      PoolKey.lt side e.1 (what_matches active)).filter
        (fun e => e.2.user_id ≠ active.user_id) :=
    (scanTake_sublist _ _).subset he
  have := List.of_mem_filter this
  simpa using this

theorem processItemsGo_trades (u left : Nat) (items : List (PoolKey × Bid)) :
    ∀ t ∈ (processItemsGo u left items).2.2.1,
      ∃ e ∈ items, t = ⟨u, e.2.user_id, e.2.amount, e.2.price⟩ := by
  induction items generalizing left with
  | nil => simp [processItemsGo]
  | cons e rest ih =>
    intro t ht
    simp only [processItemsGo] at ht
    split at ht
    · simp only [List.mem_cons] at ht
      rcases ht with rfl | ht
      · exact ⟨e, List.mem_cons_self .., rfl⟩
      · obtain ⟨e', he', rfl⟩ := ih _ t ht
        exact ⟨e', List.mem_cons_of_mem _ he', rfl⟩
    · obtain ⟨e', he', rfl⟩ := ih _ t ht
      exact ⟨e', List.mem_cons_of_mem _ he', rfl⟩

theorem processItemsGo_drops (u left : Nat) (items : List (PoolKey × Bid)) :
    ∀ k ∈ (processItemsGo u left items).2.1, ∃ e ∈ items, k = e.1 := by
  induction items generalizing left with
  | nil => simp [processItemsGo]
  | cons e rest ih =>
    intro k hk
    simp only [processItemsGo] at hk
    split at hk
    · simp only [List.mem_cons] at hk
      rcases hk with rfl | hk
      · exact ⟨e, List.mem_cons_self .., rfl⟩
      · obtain ⟨e', he', rfl⟩ := ih _ k hk
        exact ⟨e', List.mem_cons_of_mem _ he', rfl⟩
    · obtain ⟨e', he', rfl⟩ := ih _ k hk
      exact ⟨e', List.mem_cons_of_mem _ he', rfl⟩

theorem processItemsGo_updates (u left : Nat) (items : List (PoolKey × Bid)) :
    ∀ p ∈ (processItemsGo u left items).2.2.2, ∃ e ∈ items, p.1 = e.1 := by
  induction items generalizing left with
  | nil => simp [processItemsGo]
  | cons e rest ih =>
    intro p hp
    simp only [processItemsGo] at hp
    split at hp
    · obtain ⟨e', he', h⟩ := ih _ p hp
      exact ⟨e', List.mem_cons_of_mem _ he', h⟩
    · simp only [List.mem_cons] at hp
      rcases hp with rfl | hp
      · exact ⟨e, List.mem_cons_self .., rfl⟩
      · obtain ⟨e', he', h⟩ := ih _ p hp
        exact ⟨e', List.mem_cons_of_mem _ he', h⟩

theorem mem_applyUpdates_of_ne (entries : List (PoolKey × Bid))
    (updates : List (PoolKey × Nat)) (e : PoolKey × Bid)
    (hne : ∀ u ∈ updates, u.1 ≠ e.1) (he : e ∈ entries) :
    e ∈ applyUpdates entries updates := by
  have hfind : updates.find? (fun u => u.1 = e.1) = none := by
    apply List.find?_eq_none.2
    intro u hu
    simpa using hne u hu
  have : e = (match updates.find? (fun u => u.1 = e.1) with
    | some u => (e.1, { e.2 with amount := u.2 })
    | none => e) := by rw [hfind]
  rw [applyUpdates]
  exact this ▸ List.mem_map_of_mem _ he

theorem mem_removeKeys_of_ne (entries : List (PoolKey × Bid))
    (keys : List PoolKey) (e : PoolKey × Bid)
    (hne : ∀ k ∈ keys, k ≠ e.1) (he : e ∈ entries) :
    e ∈ removeKeys entries keys := by
  rw [removeKeys]
  refine List.mem_filter.2 ⟨he, ?_⟩
  have hnm : ¬ e.1 ∈ keys := fun hc => hne e.1 hc rfl
  simpa [List.elem_iff] using hnm

theorem suitable_key_ne_self (side : Side) (pool : Pool) (active : Bid)
    (hnd : pool.entries.Pairwise fun a b => a.1 ≠ b.1)
    (e : PoolKey × Bid) (he : e ∈ pool.entries) (hu : e.2.user_id = active.user_id) :
    ∀ e' ∈ get_suitable side pool active, e'.1 ≠ e.1 := by
  intro e' he' hk
  have hmem : e' ∈ pool.entries := (get_suitable_sublist side pool active).subset he'
  have hne := get_suitable_user_ne side pool active e' he'
  by_cases heq : e' = e
  · rw [heq] at hne; exact hne hu
  · exact List.Pairwise.forall (fun _ _ h => h ∘ Eq.symm) hnd hmem he heq hk

/-! ## Key ordering and the book invariant -/

theorem PoolKey.lt_trans {side : Side} {a b c : PoolKey}
    (h1 : PoolKey.lt side a b = true) (h2 : PoolKey.lt side b c = true) :
    PoolKey.lt side a c = true := by
  cases side <;> simp [PoolKey.lt] at * <;> omega

theorem PoolKey.lt_total {side : Side} {a b : PoolKey} (h : a ≠ b) :
    PoolKey.lt side a b = true ∨ PoolKey.lt side b a = true := by
  have hne : a.price ≠ b.price ∨ a.id ≠ b.id := by
    by_contra hc
    push_neg at hc
    exact h (by cases a; cases b; simp_all)
  cases side <;> simp [PoolKey.lt] <;> omega

theorem mem_insertSorted (side : Side) (k : PoolKey) (v : Bid)
    (l : List (PoolKey × Bid)) :
    ∀ x ∈ insertSorted side k v l, x = (k, v) ∨ x ∈ l := by
  induction l with
  | nil =>
    intro x hx
    simp only [insertSorted] at hx
    exact Or.inl (by simpa using hx)
  | cons e rest ih =>
    intro x hx
    simp only [insertSorted] at hx
    split at hx
    · rcases List.mem_cons.1 hx with h | h
      · exact Or.inl h
      · exact Or.inr h
    · split at hx
      · rcases List.mem_cons.1 hx with h | h
        · exact Or.inl h
        · exact Or.inr (List.mem_cons_of_mem _ h)
      · rcases List.mem_cons.1 hx with h | h
        · exact Or.inr (h ▸ List.mem_cons_self ..)
        · rcases ih x h with h' | h'
          · exact Or.inl h'
          · exact Or.inr (List.mem_cons_of_mem _ h')

theorem pairwise_insertSorted (side : Side) (k : PoolKey) (v : Bid)
    (l : List (PoolKey × Bid))
    (hl : l.Pairwise fun a b => PoolKey.lt side a.1 b.1 = true) :
    (insertSorted side k v l).Pairwise fun a b => PoolKey.lt side a.1 b.1 = true := by
  induction l with
  | nil => simp [insertSorted]
  | cons e rest ih =>
    rcases List.pairwise_cons.1 hl with ⟨he, hrest⟩
    simp only [insertSorted]
    split
    · next hlt =>
      refine List.pairwise_cons.2 ⟨?_, hl⟩
      intro x hx
      rcases List.mem_cons.1 hx with rfl | hx
      · exact hlt
      · exact PoolKey.lt_trans hlt (he x hx)
    · next hnlt =>
      split
      · next heq =>
        refine List.pairwise_cons.2 ⟨?_, hrest⟩
        intro x hx
        exact heq ▸ he x hx
      · next hne =>
        have hek : PoolKey.lt side e.1 k = true := by
          rcases @PoolKey.lt_total side k e.1 hne with h | h
          · exact absurd h hnlt
          · exact h
        refine List.pairwise_cons.2 ⟨?_, ih hrest⟩
        intro x hx
        rcases mem_insertSorted side k v rest x hx with rfl | hx
        · exact hek
        · exact he x hx

theorem applyUpdates_entry_fst (updates : List (PoolKey × Nat)) (e : PoolKey × Bid) :
    (match updates.find? (fun u : PoolKey × Nat => u.1 = e.1) with
      | some u => (e.1, { e.2 with amount := u.2 })
      | none => e).1 = e.1 := by
  cases updates.find? (fun u : PoolKey × Nat => u.1 = e.1) <;> rfl

theorem applyUpdates_entry_price (updates : List (PoolKey × Nat)) (e : PoolKey × Bid) :
    (match updates.find? (fun u : PoolKey × Nat => u.1 = e.1) with
      | some u => (e.1, { e.2 with amount := u.2 })
      | none => e).2.price = e.2.price := by
  cases updates.find? (fun u : PoolKey × Nat => u.1 = e.1) <;> rfl

theorem entries_inv_applyUpdates (side : Side) (entries : List (PoolKey × Bid))
    (updates : List (PoolKey × Nat))
    (h1 : entries.Pairwise fun a b => PoolKey.lt side a.1 b.1 = true)
    (h2 : ∀ e ∈ entries, e.1.price = e.2.price) :
    (applyUpdates entries updates).Pairwise
        (fun a b => PoolKey.lt side a.1 b.1 = true) ∧
      ∀ e ∈ applyUpdates entries updates, e.1.price = e.2.price := by
  constructor
  · rw [applyUpdates, List.pairwise_map]
    refine h1.imp_of_mem ?_
    intro a b _ _ hab
    rwa [applyUpdates_entry_fst, applyUpdates_entry_fst]
  · intro e he
    rw [applyUpdates] at he
    obtain ⟨x, hx, rfl⟩ := List.mem_map.1 he
    rw [applyUpdates_entry_fst, applyUpdates_entry_price]
    exact h2 x hx

theorem poolInv_process_bid (side : Side) (pool : Pool) (active : Bid)
    (ty : BidProcessingType) (h : poolInv side pool) :
    poolInv side (process_bid side pool active ty).pool := by
  obtain ⟨h1, h2⟩ := h
  have base := entries_inv_applyUpdates side pool.entries
    (processItemsGo active.user_id active.amount (get_suitable side pool active)).2.2.2 h1 h2
  cases ty <;> simp only [process_bid]
  · split <;>
      exact ⟨base.1.sublist (List.filter_sublist _),
        fun e he => base.2 e ((List.filter_sublist _).subset he)⟩
  · split
    · exact ⟨base.1, base.2⟩
    · exact ⟨h1, h2⟩
  · exact ⟨base.1.sublist (List.filter_sublist _),
      fun e he => base.2 e ((List.filter_sublist _).subset he)⟩

theorem poolInv_push (side : Side) (p : Pool) (bid : Bid) (h : poolInv side p) :
    poolInv side (Pool.push side p bid) := by
  obtain ⟨h1, h2⟩ := h
  constructor
  · exact pairwise_insertSorted side _ bid p.entries h1
  · intro e he
    rcases mem_insertSorted side _ bid p.entries e he with rfl | he
    · rfl
    · exact h2 e he

theorem poolInv_empty (side : Side) : poolInv side Pool.empty := by
  simp [poolInv, Pool.empty]

theorem bookInv_submitStep (b : OrderBook) (s : Submission) (h : bookInv b) :
    bookInv (submitStep b s).1 := by
  obtain ⟨hs, hb⟩ := h
  cases s with
  | mk side bid ty =>
    cases side
    · simp only [submitStep, process_buying]
      split
      · exact ⟨poolInv_process_bid .sell b.sellers bid ty hs,
          poolInv_push .buy b.buyers _ hb⟩
      · exact ⟨poolInv_process_bid .sell b.sellers bid ty hs, hb⟩
    · simp only [submitStep, process_selling]
      split
      · exact ⟨poolInv_push .sell b.sellers _ hs,
          poolInv_process_bid .buy b.buyers bid ty hb⟩
      · exact ⟨hs, poolInv_process_bid .buy b.buyers bid ty hb⟩

theorem bookInv_run (subs : List Submission) : bookInv (run subs) := by
  suffices h : ∀ b, bookInv b →
      bookInv (subs.foldl (fun b s => (submitStep b s).1) b) from
    h OrderBook.empty ⟨poolInv_empty .sell, poolInv_empty .buy⟩
  induction subs with
  | nil => intro b hb; exact hb
  | cons s rest ih =>
    intro b hb
    exact ih _ (bookInv_submitStep b s hb)

theorem get_suitable_in_range (side : Side) (pool : Pool) (active : Bid) :
    ∀ e ∈ get_suitable side pool active,
      PoolKey.lt side e.1 (what_matches active) = true := by
  intro e he
  have h1 : e ∈ (pool.entries.filter fun e =>
      PoolKey.lt side e.1 (what_matches active)).filter
        (fun e => e.2.user_id ≠ active.user_id) :=
    (scanTake_sublist _ _).subset he
  have h2 := List.mem_of_mem_filter h1
  exact (List.mem_filter.1 h2).2

theorem process_bid_trades_spec (side : Side) (pool : Pool) (active : Bid)
    (ty : BidProcessingType) (hinv : poolInv side pool) :
    ∀ t ∈ (process_bid side pool active ty).trades,
      ∃ e ∈ pool.entries,
        t = ⟨active.user_id, e.2.user_id, e.2.amount, e.2.price⟩ ∧
        (side = .buy → active.price ≤ e.2.price) ∧
        (side = .sell → e.2.price ≤ active.price) := by
  have key : ∀ t ∈ (process_items active (get_suitable side pool active)).trades,
      ∃ e ∈ pool.entries,
        t = ⟨active.user_id, e.2.user_id, e.2.amount, e.2.price⟩ ∧
        (side = .buy → active.price ≤ e.2.price) ∧
        (side = .sell → e.2.price ≤ active.price) := by
    intro t ht
    obtain ⟨e, he, rfl⟩ :=
      processItemsGo_trades active.user_id active.amount _ t ht
    have hmem := (get_suitable_sublist side pool active).subset he
    have hr := get_suitable_in_range side pool active e he
    have hp := hinv.2 e hmem
    refine ⟨e, hmem, rfl, ?_, ?_⟩
    · rintro rfl
      simp only [PoolKey.lt, what_matches] at hr
      simp only [Bool.or_eq_true, Bool.and_eq_true, decide_eq_true_eq, beq_iff_eq] at hr
      omega
    · rintro rfl
      simp only [PoolKey.lt, what_matches] at hr
      simp only [Bool.or_eq_true, Bool.and_eq_true, decide_eq_true_eq, beq_iff_eq] at hr
      omega
  intro t ht
  cases ty <;> simp only [process_bid] at ht
  · split at ht <;> exact key t ht
  · split at ht
    · exact key t ht
    · simp at ht
  · exact key t ht

theorem process_selling_snd (book : OrderBook) (bid : Bid) (ty : BidProcessingType) :
    (process_selling book bid ty).2 = process_bid .buy book.buyers bid ty := by
  simp only [process_selling]
  split <;> rfl

theorem process_buying_snd (book : OrderBook) (bid : Bid) (ty : BidProcessingType) :
    (process_buying book bid ty).2 = process_bid .sell book.sellers bid ty := by
  simp only [process_buying]
  split <;> rfl

/-! ## The checked pipeline computes the same results -/

theorem checkedSub_of_le {a b : Nat} (h : b ≤ a) : checkedSub a b = some (a - b) := by
  simp [checkedSub, h]

theorem scanTakeChecked_eq (l : List (PoolKey × Bid)) :
    ∀ left, scanTakeChecked left l = some (scanTake left l) := by
  induction l with
  | nil => intro left; rfl
  | cons e rest ih =>
    intro left
    simp only [scanTakeChecked, scanTake]
    split
    · rfl
    · split
      · next h => simp [ih]
      · next h =>
        rw [checkedSub_of_le (Nat.le_of_not_lt h)]
        simp [ih]

theorem processItemsGo_fst_le (u : Nat) (items : List (PoolKey × Bid)) :
    ∀ left, (processItemsGo u left items).1 ≤ left := by
  induction items with
  | nil => intro left; simp [processItemsGo]
  | cons e rest ih =>
    intro left
    simp only [processItemsGo]
    split
    · exact le_trans (ih _) (Nat.sub_le _ _)
    · exact le_trans (ih _) (Nat.zero_le _)

theorem processItemsGoChecked_eq (u : Nat) (items : List (PoolKey × Bid)) :
    ∀ left, processItemsGoChecked u left items = some (processItemsGo u left items) := by
  induction items with
  | nil => intro left; rfl
  | cons e rest ih =>
    intro left
    obtain ⟨key, poolBid⟩ := e
    simp only [processItemsGoChecked, processItemsGo]
    split
    · next h => rw [checkedSub_of_le h]; simp [ih]
    · next h =>
      rw [checkedSub_of_le (Nat.le_of_lt (Nat.lt_of_not_le h))]
      simp [ih]

theorem process_itemsChecked_eq (active : Bid) (items : List (PoolKey × Bid)) :
    process_itemsChecked active items = some (process_items active items) := by
  rw [process_itemsChecked, processItemsGoChecked_eq]
  simp only [Option.bind_eq_bind', Option.some_bind']
  rw [checkedSub_of_le (processItemsGo_fst_le active.user_id items active.amount)]
  rfl

theorem process_items_processed_le (active : Bid) (items : List (PoolKey × Bid)) :
    (process_items active items).items_processed ≤ active.amount :=
  Nat.sub_le _ _

theorem scanTake_sum_le (M : Nat) :
    ∀ (l : List (PoolKey × Bid)), (∀ e ∈ l, e.2.amount ≤ M) →
      ∀ left, ((scanTake left l).map fun e => e.2.amount).sum ≤ left + M := by
  intro l
  induction l with
  | nil => intro _ left; simp [scanTake]
  | cons e rest ih =>
    intro hM left
    simp only [scanTake]
    split
    · simp
    · next hne =>
      have h2 := hM e (List.mem_cons_self ..)
      by_cases hgt : e.2.amount > left
      · simp only [if_pos hgt, scanTake_zero, List.map_cons, List.map_nil,
          List.sum_cons, List.sum_nil]
        omega
      · simp only [if_neg hgt, List.map_cons, List.sum_cons]
        have h1 := ih (fun x hx => hM x (List.mem_cons_of_mem _ hx)) (left - e.2.amount)
        omega

/-! ## Claim theorems -/

/-- Claim C8.  Every trade event emitted by a submission against a book
reached by any run carries as its execution price the price (and user and
amount) of a resting order of the opposing book, and that price satisfies
the match constraint: at least the taker's limit when the taker sells,
at most the taker's limit when the taker buys. -/
theorem c8_trade_price_compatibility (subs : List Submission) (s : Submission) :
    ∀ t ∈ (submitStep (run subs) s).2.trades,
      (s.side = .sell →
        ∃ e ∈ (run subs).buyers.entries,
          t = ⟨s.bid.user_id, e.2.user_id, e.2.amount, e.2.price⟩ ∧
            s.bid.price ≤ t.price) ∧
      (s.side = .buy →
        ∃ e ∈ (run subs).sellers.entries,
          t = ⟨s.bid.user_id, e.2.user_id, e.2.amount, e.2.price⟩ ∧
            t.price ≤ s.bid.price) := by
  obtain ⟨hsInv, hbInv⟩ := bookInv_run subs
  intro t ht
  constructor
  · intro hside
    rw [show (submitStep (run subs) s) = process_selling (run subs) s.bid s.ty by
      simp [submitStep, hside]] at ht
    rw [process_selling_snd] at ht
    obtain ⟨e, hmem, rfl, hbound, _⟩ :=
      process_bid_trades_spec .buy (run subs).buyers s.bid s.ty hbInv t ht
    exact ⟨e, hmem, rfl, hbound rfl⟩
  · intro hside
    rw [show (submitStep (run subs) s) = process_buying (run subs) s.bid s.ty by
      simp [submitStep, hside]] at ht
    rw [process_buying_snd] at ht
    obtain ⟨e, hmem, rfl, _, hbound⟩ :=
      process_bid_trades_spec .sell (run subs).sellers s.bid s.ty hsInv t ht
    exact ⟨e, hmem, rfl, hbound rfl⟩

/-- Witness for C8: the IoC buy of spec Scenario D trades 3 units at the
resting user-1 sell's price 10, within the buyer's limit 10. -/
theorem c8_trade_price_compatibility_witness :
    ∃ e ∈ (run [⟨.sell, ⟨10, 3, 1⟩, .Limit⟩]).sellers.entries,
      (⟨2, 1, 3, 10⟩ : TradeEvent) = ⟨2, e.2.user_id, e.2.amount, e.2.price⟩ ∧
        (⟨2, 1, 3, 10⟩ : TradeEvent).price ≤ 10 :=
  (c8_trade_price_compatibility [⟨.sell, ⟨10, 3, 1⟩, .Limit⟩]
      ⟨.buy, ⟨10, 10, 2⟩, .ImmediateOrCancel⟩ ⟨2, 1, 3, 10⟩ (by decide)).2 rfl

/-- Claim C7.  After any sequence of submissions, the buy book in key
order has pairwise non-increasing prices, with strictly increasing
insertion ids within equal prices; the sell book symmetrically has
pairwise non-decreasing prices with strictly increasing ids within equal
prices. -/
theorem c7_price_time_priority (subs : List Submission) :
    (run subs).buyers.entries.Pairwise
      (fun a b => b.2.price ≤ a.2.price ∧ (a.2.price = b.2.price → a.1.id < b.1.id)) ∧
    (run subs).sellers.entries.Pairwise
      (fun a b => a.2.price ≤ b.2.price ∧ (a.2.price = b.2.price → a.1.id < b.1.id)) := by
  obtain ⟨⟨hsortS, hpriceS⟩, ⟨hsortB, hpriceB⟩⟩ := bookInv_run subs
  constructor
  · refine hsortB.imp_of_mem ?_
    intro a b ha hb hab
    have hpa := hpriceB a ha
    have hpb := hpriceB b hb
    simp only [PoolKey.lt] at hab
    simp only [Bool.or_eq_true, Bool.and_eq_true, decide_eq_true_eq, beq_iff_eq] at hab
    omega
  · refine hsortS.imp_of_mem ?_
    intro a b ha hb hab
    have hpa := hpriceS a ha
    have hpb := hpriceS b hb
    simp only [PoolKey.lt] at hab
    simp only [Bool.or_eq_true, Bool.and_eq_true, decide_eq_true_eq, beq_iff_eq] at hab
    omega

/-- Claim C6.  Self-trade prevention: entries of the opposing pool owned
by the active user are never part of the suitable walk (hence never
matched and never counted toward FillOrKill liquidity); no emitted trade
has `taker_user = maker_user`; and — when the pool's keys are distinct,
as they are in every reachable pool — a self-owned entry survives any
submission untouched (never removed, never decremented). -/
theorem c6_self_trade_prevention (side : Side) (pool : Pool) (active : Bid)
    (ty : BidProcessingType) :
    (∀ e ∈ get_suitable side pool active, e.2.user_id ≠ active.user_id) ∧
    (∀ t ∈ (process_bid side pool active ty).trades, t.taker_user ≠ t.maker_user) ∧
    (pool.entries.Pairwise (fun a b => a.1 ≠ b.1) →
      ∀ e ∈ pool.entries, e.2.user_id = active.user_id →
        e ∈ (process_bid side pool active ty).pool.entries) := by
  refine ⟨get_suitable_user_ne side pool active, ?_, ?_⟩
  · have key : ∀ t ∈ (process_items active (get_suitable side pool active)).trades,
        t.taker_user ≠ t.maker_user := by
      intro t ht
      obtain ⟨e, he, rfl⟩ :=
        processItemsGo_trades active.user_id active.amount _ t ht
      exact fun h => (get_suitable_user_ne side pool active e he) h.symm
    intro t ht
    cases ty <;> simp only [process_bid] at ht
    · split at ht <;> exact key t ht
    · split at ht
      · exact key t ht
      · simp at ht
    · exact key t ht
  · intro hnd e he hu
    have hkeys := suitable_key_ne_self side pool active hnd e he hu
    have hupd : ∀ u ∈ (processItemsGo active.user_id active.amount
        (get_suitable side pool active)).2.2.2, u.1 ≠ e.1 := by
      intro u hu'
      obtain ⟨e', he', h⟩ :=
        processItemsGo_updates active.user_id active.amount _ u hu'
      rw [h]; exact hkeys e' he'
    have hdrop : ∀ k ∈ (processItemsGo active.user_id active.amount
        (get_suitable side pool active)).2.1, k ≠ e.1 := by
      intro k hk
      obtain ⟨e', he', h⟩ :=
        processItemsGo_drops active.user_id active.amount _ k hk
      rw [h]; exact hkeys e' he'
    cases ty <;> simp only [process_bid]
    · split <;>
        exact mem_removeKeys_of_ne _ _ _ hdrop (mem_applyUpdates_of_ne _ _ _ hupd he)
    · split
      · exact mem_applyUpdates_of_ne _ _ _ hupd he
      · exact he
    · exact mem_removeKeys_of_ne _ _ _ hdrop (mem_applyUpdates_of_ne _ _ _ hupd he)

/-- Witness for C6: a user-7 resting buy at `100` survives user 7's own
Limit sell submission at the same price. -/
theorem c6_self_trade_prevention_witness :
    (⟨1, 100⟩, Bid.mk 100 5 7) ∈
      (process_bid .buy ⟨[(⟨1, 100⟩, ⟨100, 5, 7⟩)], 1⟩ ⟨100, 5, 7⟩ .Limit).pool.entries :=
  (c6_self_trade_prevention .buy ⟨[(⟨1, 100⟩, ⟨100, 5, 7⟩)], 1⟩ ⟨100, 5, 7⟩ .Limit).2.2
    (by decide) _ (by decide) rfl

/-- Claim C1 (code bug).  Scenario C of the spec: sells `5@10` from users 1
and 2 rest, then user 3 submits a FillOrKill buy of `7@10`.  Liquidity
(10) covers the order, so a Limit-style execution runs: it logs a trade
fully consuming user 1's resting order and decrements user 2's order to 3
— yet user 1's order is still in the sell book with its original amount,
because the `FillOrKill` arm of `process_bid` discards `keys_to_drop`
without removing them.  User 1 has thus both sold 5 units and kept 5
resting: conservation fails. -/
theorem c1_fok_consumed_order_not_removed :
    (submitStep (run [⟨.sell, ⟨10, 5, 1⟩, .Limit⟩, ⟨.sell, ⟨10, 5, 2⟩, .Limit⟩])
        ⟨.buy, ⟨10, 7, 3⟩, .FillOrKill⟩) =
      (⟨⟨[(⟨1, 10⟩, ⟨10, 5, 1⟩), (⟨2, 10⟩, ⟨10, 3, 2⟩)], 2⟩, Pool.empty⟩,
        { pool := ⟨[(⟨1, 10⟩, ⟨10, 5, 1⟩), (⟨2, 10⟩, ⟨10, 3, 2⟩)], 2⟩
          remainder := none
          trades := [⟨3, 1, 5, 10⟩]
          dropEvent := false }) := by
  decide

/-- Counterexample to claim C3 as stated: at the reachable book with
resting sells of sizes 1 and `2^64 - 1`, a FillOrKill buy needing
`2^64 - 1` is killed even though the matchable liquidity (`2^64`) is at
least the order's size — the `u64` dry-run sum wraps to 0 and the
comparison sees insufficient liquidity. -/
theorem c3_counterexample :
    (process_bid .sell
        (run [⟨.sell, ⟨10, 1, 1⟩, .Limit⟩, ⟨.sell, ⟨10, 2 ^ 64 - 1, 2⟩, .Limit⟩]).sellers
        ⟨10, 2 ^ 64 - 1, 3⟩ .FillOrKill).dropEvent = true ∧
    2 ^ 64 - 1 ≤ available_amount .sell
        (run [⟨.sell, ⟨10, 1, 1⟩, .Limit⟩, ⟨.sell, ⟨10, 2 ^ 64 - 1, 2⟩, .Limit⟩]).sellers
        ⟨10, 2 ^ 64 - 1, 3⟩ := by
  decide

/-- Claim C3, amended.  A FillOrKill submission is killed (a `[DROP ]`
line, no trades, opposing pool untouched, no remainder) exactly when the
wrapped `u64` dry-run sum — the liquidity of the truncated, self-skipped
priority walk taken modulo `2^64` — is strictly below the active amount;
whenever that liquidity sum fits in `u64` this is exactly the original
condition, liquidity strictly below the order's size. -/
theorem c3_fok_kill_iff_amended (side : Side) (pool : Pool) (active : Bid) :
    ((process_bid side pool active .FillOrKill).dropEvent = true ↔
      available_amount side pool active % 2 ^ 64 < active.amount) ∧
    (available_amount side pool active % 2 ^ 64 < active.amount →
      process_bid side pool active .FillOrKill =
        { pool := pool, remainder := none, trades := [], dropEvent := true }) ∧
    (available_amount side pool active ≤ 2 ^ 64 - 1 →
      ((process_bid side pool active .FillOrKill).dropEvent = true ↔
        available_amount side pool active < active.amount)) := by
  have h12 : ((process_bid side pool active .FillOrKill).dropEvent = true ↔
      available_amount side pool active % 2 ^ 64 < active.amount) ∧
      (available_amount side pool active % 2 ^ 64 < active.amount →
        process_bid side pool active .FillOrKill =
          { pool := pool, remainder := none, trades := [], dropEvent := true }) := by
    simp only [process_bid, available_amount]
    split
    · next h => simp; omega
    · next h => simp; omega
  refine ⟨h12.1, h12.2, fun hle => ?_⟩
  rw [h12.1, Nat.mod_eq_of_lt (by omega)]

/-- Witness for C3 (amended): a FillOrKill buy of `15@100` against a lone
resting sell of `10@100` has non-overflowing liquidity 10 < 15 and is
killed unchanged. -/
theorem c3_fok_kill_iff_amended_witness :
    process_bid .sell ⟨[(⟨1, 100⟩, ⟨100, 10, 1⟩)], 1⟩ ⟨100, 15, 2⟩ .FillOrKill =
        { pool := ⟨[(⟨1, 100⟩, ⟨100, 10, 1⟩)], 1⟩, remainder := none
          trades := [], dropEvent := true } ∧
      ((process_bid .sell ⟨[(⟨1, 100⟩, ⟨100, 10, 1⟩)], 1⟩ ⟨100, 15, 2⟩
          .FillOrKill).dropEvent = true ↔
        available_amount .sell ⟨[(⟨1, 100⟩, ⟨100, 10, 1⟩)], 1⟩ ⟨100, 15, 2⟩ < 15) :=
  ⟨(c3_fok_kill_iff_amended .sell ⟨[(⟨1, 100⟩, ⟨100, 10, 1⟩)], 1⟩ ⟨100, 15, 2⟩).2.1
      (by decide),
    (c3_fok_kill_iff_amended .sell ⟨[(⟨1, 100⟩, ⟨100, 10, 1⟩)], 1⟩ ⟨100, 15, 2⟩).2.2
      (by decide)⟩

/-- Counterexample to claim C4 as stated: a zero-size ImmediateOrCancel
submission does emit a drop event (`items_processed == 0` triggers the
`[DROP ]` log), so a zero-size submission is not event-free under every
policy. -/
theorem c4_counterexample :
    (submitStep OrderBook.empty ⟨.buy, ⟨0, 0, 1⟩, .ImmediateOrCancel⟩).2.dropEvent = true := by
  decide

/-- Claim C4, amended: a zero-size incoming order never trades, never
rests, never returns a remainder and leaves the opposing pool unchanged
under every policy; it emits no event under Limit and FillOrKill, but
under ImmediateOrCancel it emits a drop event. -/
theorem c4_zero_size_amended (side : Side) (pool : Pool) (active : Bid)
    (ty : BidProcessingType) (h : active.amount = 0) :
    (process_bid side pool active ty).pool = pool ∧
    (process_bid side pool active ty).remainder = none ∧
    (process_bid side pool active ty).trades = [] ∧
    ((process_bid side pool active ty).dropEvent = true ↔ ty = .ImmediateOrCancel) ∧
    (∀ (book : OrderBook) (sd : Side), (submitStep book ⟨sd, active, ty⟩).1 = book) := by
  have key : ∀ (side' : Side) (pool' : Pool),
      (process_bid side' pool' active ty).pool = pool' ∧
      (process_bid side' pool' active ty).remainder = none ∧
      (process_bid side' pool' active ty).trades = [] ∧
      ((process_bid side' pool' active ty).dropEvent = true ↔
        ty = .ImmediateOrCancel) := by
    intro side' pool'
    have hsuit : get_suitable side' pool' active = [] := by
      simp [get_suitable, h, scanTake_zero]
    cases ty <;>
      simp [process_bid, hsuit, process_items_nil, applyUpdates_nil, removeKeys_nil, h]
  obtain ⟨k1, k2, k3, k4⟩ := key side pool
  refine ⟨k1, k2, k3, k4, ?_⟩
  intro book sd
  cases sd
  · simp only [submitStep, process_buying, (key .sell book.sellers).2.1,
      (key .sell book.sellers).1]
  · simp only [submitStep, process_selling, (key .buy book.buyers).2.1,
      (key .buy book.buyers).1]

/-- Witness for C4 (amended) at a concrete zero-size Limit buy. -/
theorem c4_zero_size_amended_witness :
    (process_bid .sell ⟨[(⟨1, 5⟩, ⟨5, 3, 1⟩)], 1⟩ ⟨7, 0, 2⟩ .Limit).pool =
        ⟨[(⟨1, 5⟩, ⟨5, 3, 1⟩)], 1⟩ ∧
      (process_bid .sell ⟨[(⟨1, 5⟩, ⟨5, 3, 1⟩)], 1⟩ ⟨7, 0, 2⟩ .Limit).remainder = none :=
  ⟨(c4_zero_size_amended .sell ⟨[(⟨1, 5⟩, ⟨5, 3, 1⟩)], 1⟩ ⟨7, 0, 2⟩ .Limit rfl).1,
    (c4_zero_size_amended .sell ⟨[(⟨1, 5⟩, ⟨5, 3, 1⟩)], 1⟩ ⟨7, 0, 2⟩ .Limit rfl).2.1⟩

/-- Claim C5.  An ImmediateOrCancel submission never returns a remainder,
so the same-side pool is never pushed to (no resting order originates
from an IoC submission), and the drop event is emitted exactly when zero
units were filled. -/
theorem c5_ioc_never_rests (side : Side) (pool : Pool) (active : Bid)
    (book : OrderBook) (bid : Bid) :
    (process_bid side pool active .ImmediateOrCancel).remainder = none ∧
    ((process_bid side pool active .ImmediateOrCancel).dropEvent = true ↔
      filled_amount side pool active = 0) ∧
    (process_selling book bid .ImmediateOrCancel).1.sellers = book.sellers ∧
    (process_buying book bid .ImmediateOrCancel).1.buyers = book.buyers := by
  refine ⟨rfl, ?_, ?_, ?_⟩
  · simp [process_bid, filled_amount]
  · simp [process_selling, process_bid]
  · simp [process_buying, process_bid]

/-- Claim C9.  No `u64` subtraction in the matching pipeline underflows:
running `process_bid` with every subtraction replaced by its guarded
(`checkedSub`) counterpart succeeds on every input and computes the same
result, for each side, pool, active bid and policy. -/
theorem c9_no_underflow (side : Side) (pool : Pool) (active : Bid)
    (ty : BidProcessingType) :
    process_bidChecked side pool active ty = some (process_bid side pool active ty) := by
  rw [process_bidChecked, scanTakeChecked_eq]
  simp only [Option.bind_eq_bind', Option.some_bind']
  cases ty
  case Limit =>
    rw [process_itemsChecked_eq]
    simp only [Option.bind_eq_bind', Option.some_bind']
    simp only [process_bid, get_suitable]
    split
    · rfl
    · rw [checkedSub_of_le (process_items_processed_le active _)]
      simp only [Option.bind_eq_bind', Option.some_bind']
      rfl
  case FillOrKill =>
    simp only [process_bid, get_suitable]
    split
    · rw [process_itemsChecked_eq]
      simp only [Option.bind_eq_bind', Option.some_bind']
      rfl
    · rfl
  case ImmediateOrCancel =>
    rw [process_itemsChecked_eq]
    simp only [Option.bind_eq_bind', Option.some_bind']
    simp only [process_bid, get_suitable]
    rfl

/-- Counterexample to claim C10 as stated: with resting sells of sizes 1
and `2^64 - 1` and a FillOrKill buy needing `2^64 - 1`, the dry-run
liquidity sum over the truncated walk is `2^64`, exceeding `2^64 - 1`
(the `u64` summation overflows). -/
theorem c10_counterexample :
    2 ^ 64 - 1 < available_amount .sell
      (run [⟨.sell, ⟨10, 1, 1⟩, .Limit⟩, ⟨.sell, ⟨10, 2 ^ 64 - 1, 2⟩, .Limit⟩]).sellers
      ⟨10, 2 ^ 64 - 1, 3⟩ := by
  decide

/-- Claim C10, amended: the FillOrKill dry-run sum is bounded by the
active amount plus one maximal entry amount — at most `2^65 - 2` when
every resting size and the order size are `u64` values — but it can
exceed `2^64 - 1`, so the `u64` summation may overflow. -/
theorem c10_sum_bounded (side : Side) (pool : Pool) (active : Bid)
    (hM : ∀ e ∈ pool.entries, e.2.amount ≤ 2 ^ 64 - 1)
    (hN : active.amount ≤ 2 ^ 64 - 1) :
    available_amount side pool active ≤ 2 ^ 65 - 2 := by
  have hM' : ∀ e ∈ (pool.entries.filter fun e =>
      PoolKey.lt side e.1 (what_matches active)).filter
        (fun e => e.2.user_id ≠ active.user_id), e.2.amount ≤ 2 ^ 64 - 1 :=
    fun e he => hM e (List.mem_of_mem_filter (List.mem_of_mem_filter he))
  have hb := scanTake_sum_le (2 ^ 64 - 1) _ hM' active.amount
  rw [available_amount, get_suitable]
  omega

/-- Witness for C10 (amended) at the overflow book itself. -/
theorem c10_sum_bounded_witness :
    available_amount .sell
      (run [⟨.sell, ⟨10, 1, 1⟩, .Limit⟩, ⟨.sell, ⟨10, 2 ^ 64 - 1, 2⟩, .Limit⟩]).sellers
      ⟨10, 2 ^ 64 - 1, 3⟩ ≤ 2 ^ 65 - 2 :=
  c10_sum_bounded .sell _ _ (by decide) (by decide)

/-- Claim C2 (code bug).  Scenario A of the spec: sells `5@10` from users 1
and 2 rest, then user 3 submits a Limit buy of `7@10`.  The walk reaches
user 2's resting order with `size 5 > need 2`, decrements it to 3 and
stops — but emits no trade event for the 2 units taken: the `else` branch
of `process_items` performs no `[TRADE]` log.  Only the full consumption
of user 1's order produced an event. -/
theorem c2_no_trade_event_on_decrement :
    (submitStep (run [⟨.sell, ⟨10, 5, 1⟩, .Limit⟩, ⟨.sell, ⟨10, 5, 2⟩, .Limit⟩])
        ⟨.buy, ⟨10, 7, 3⟩, .Limit⟩) =
      (⟨⟨[(⟨2, 10⟩, ⟨10, 3, 2⟩)], 2⟩, Pool.empty⟩,
        { pool := ⟨[(⟨2, 10⟩, ⟨10, 3, 2⟩)], 2⟩
          remainder := none
          trades := [⟨3, 1, 5, 10⟩]
          dropEvent := false }) := by
  decide
